import Mathlib

/-!
Verification of the clipboard-to-history conversion pipeline and the
statistics aggregation of `shorts_converter.py` (a YouTube-Shorts clipboard
converter), via a shallow embedding of its core functions.

Strings are modelled as `List Char`.  The three regular expressions of
`check_clipboard` use only literals, the optional groups `s?` and
`(www\.)?`, and a final greedy character class `[a-zA-Z0-9_-]+`, all matched
with `re.match` (anchored at the start, trailing characters allowed).  The
optional groups are determinized soundly: after `http` the regex continues
with `://` and after the optional `www.` it continues with `youtu`, so a
commit-on-first-char parse agrees with backtracking (an input can never
satisfy both the consuming and the skipping branch).

Effects (clipboard, network, today's date) are inputs of the embedded
functions; the GUI is out of scope, matching the specification's scope.
-/

/-- The character class `[a-zA-Z0-9_-]` of the three video-id patterns. -/
def idChar (c : Char) : Bool :=
  (decide ('a' ≤ c) && decide (c ≤ 'z')) ||
  (decide ('A' ≤ c) && decide (c ≤ 'Z')) ||
  (decide ('0' ≤ c) && decide (c ≤ '9')) ||
  c == '_' || c == '-'

/-- Match a literal character sequence at the head of the input, returning
the unconsumed remainder (the building block of the embedded regexes). -/
def matchLit : List Char → List Char → Option (List Char)
  | [], s => some s
  | _ :: _, [] => none
  | p :: ps, c :: cs => if c = p then matchLit ps cs else none

/-- Greedily split off the maximal run of id characters
(the semantics of the trailing `[a-zA-Z0-9_-]+` with nothing after it). -/
def takeId : List Char → List Char × List Char
  | [] => ([], [])
  | c :: cs =>
    if idChar c then
      let p := takeId cs
      (c :: p.1, p.2)
    else ([], c :: cs)

/-- Holds iff the list does not start with an id character, i.e. a greedy
id run placed before it cannot be extended into it. -/
def headNotId : List Char → Bool
  | [] => true
  | c :: _ => !(idChar c)

def httpLit : List Char := ['h', 't', 't', 'p']

def cssLit : List Char := [':', '/', '/']

def wwwLit : List Char := ['w', 'w', 'w', '.']

/-- Either `http://` or `https://`, as produced by `https?://`. -/
def schemeL (secure : Bool) : List Char :=
  if secure then ['h', 't', 't', 'p', 's', ':', '/', '/']
  else ['h', 't', 't', 'p', ':', '/', '/']

/-- The optional `www.` group. -/
def wwwL (www : Bool) : List Char := if www then wwwLit else []

/-- Literal tail of the Shorts pattern after the optional `www.`:
`youtube.com/shorts/`. -/
def shortsLit : List Char :=
  ['y', 'o', 'u', 't', 'u', 'b', 'e', '.', 'c', 'o', 'm', '/',
   's', 'h', 'o', 'r', 't', 's', '/']

/-- Literal tail of the regular-watch pattern after the optional `www.`:
`youtube.com/watch?v=`. -/
def watchLit : List Char :=
  ['y', 'o', 'u', 't', 'u', 'b', 'e', '.', 'c', 'o', 'm', '/',
   'w', 'a', 't', 'c', 'h', '?', 'v', '=']

/-- Literal tail of the short-link pattern after the scheme: `youtu.be/`. -/
def youtuLit : List Char := ['y', 'o', 'u', 't', 'u', '.', 'b', 'e', '/']

/-- The stem `https://www.youtube.com/watch?v=` of the reconstructed URL in
the `youtu.be` branch of `check_clipboard`. -/
def canonStart : List Char :=
  ['h', 't', 't', 'p', 's', ':', '/', '/', 'w', 'w', 'w', '.',
   'y', 'o', 'u', 't', 'u', 'b', 'e', '.', 'c', 'o', 'm', '/',
   'w', 'a', 't', 'c', 'h', '?', 'v', '=']

/-- Parse `https?://`: consume `http`, an optional `s`, then `://`.  Committing on
the `s` is sound: when the next character is `s` the skipping branch would
have to match `:` against `s` and fails. -/
def scheme? (s : List Char) : Option (Bool × List Char) :=
  match matchLit httpLit s with
  | none => none
  | some r1 =>
    match r1 with
    | [] => none
    | c :: r2 =>
      if c = 's' then (matchLit cssLit r2).map (fun r => (true, r))
      else (matchLit cssLit (c :: r2)).map (fun r => (false, r))

/-- Parse `(www\.)?`: committing on the `w` is sound, since both patterns continue
with `youtu`, which cannot begin with `w`. -/
def wwwOpt (s : List Char) : Bool × List Char :=
  match matchLit wwwLit s with
  | some r => (true, r)
  | none => (false, s)

/-- Result of a successful anchored match of the Shorts or regular-watch
pattern: which scheme, whether `www.` was present, the captured greedy video
id, and the unconsumed trailing text. -/
structure UrlMatch where
  secure : Bool
  www : Bool
  vid : List Char
  rest : List Char
deriving DecidableEq, Repr

/-- Anchored `re.match` of `https?://(www\.)?youtube\.com/shorts/[a-zA-Z0-9_-]+`. -/
def shortsMatch? (s : List Char) : Option UrlMatch :=
  match scheme? s with
  | none => none
  | some (sec, r1) =>
    let w := wwwOpt r1
    match matchLit shortsLit w.2 with
    | none => none
    | some r3 =>
      let p := takeId r3
      if p.1.isEmpty then none else some ⟨sec, w.1, p.1, p.2⟩

/-- Anchored `re.match` of `https?://(www\.)?youtube\.com/watch\?v=[a-zA-Z0-9_-]+`. -/
def normalMatch? (s : List Char) : Option UrlMatch :=
  match scheme? s with
  | none => none
  | some (sec, r1) =>
    let w := wwwOpt r1
    match matchLit watchLit w.2 with
    | none => none
    | some r3 =>
      let p := takeId r3
      if p.1.isEmpty then none else some ⟨sec, w.1, p.1, p.2⟩

/-- Anchored `re.match` of `https?://youtu\.be/([a-zA-Z0-9_-]+)`, returning the
captured group and the unconsumed trailing text. -/
def youtuMatch? (s : List Char) : Option (List Char × List Char) :=
  match scheme? s with
  | none => none
  | some (_, r1) =>
    match matchLit youtuLit r1 with
    | none => none
    | some r2 =>
      let p := takeId r2
      if p.1.isEmpty then none else some p

/-- One match attempt of the unanchored substitution pattern
`youtube\.com/shorts/([a-zA-Z0-9_-]+)` at the current position. -/
def shortsSeg? (s : List Char) : Option (List Char × List Char) :=
  match matchLit shortsLit s with
  | none => none
  | some r =>
    let p := takeId r
    if p.1.isEmpty then none else some p

/-- Left-to-right scan of `re.sub(r"youtube\.com/shorts/([a-zA-Z0-9_-]+)",
r"youtube.com/watch?v=\1", url)`: replace every non-overlapping match,
resuming after the replacement (the replacement text is not rescanned).
The fuel argument bounds the recursion; every step consumes at least one
input character, so fuel `s.length` computes the full scan. -/
def subShortsGo : Nat → List Char → List Char
  | 0, s => s
  | _ + 1, [] => []
  | fuel + 1, c :: cs =>
    match shortsSeg? (c :: cs) with
    | some p => watchLit ++ p.1 ++ subShortsGo fuel p.2
    | none => c :: subShortsGo fuel cs

/-- Function `convert_shorts_url` (line 337): the `re.sub` above applied to the URL. -/
def convert_shorts_url (url : List Char) : List Char :=
  subShortsGo url.length url

def shortsType : List Char := ['s', 'h', 'o', 'r', 't', 's']

def regularType : List Char := ['r', 'e', 'g', 'u', 'l', 'a', 'r']

/-- Lines 307-320 of `check_clipboard`: try the three patterns in order
(Shorts, regular watch, short link) and produce the converted URL together
with the link type; `none` when nothing matches (the tick returns). -/
def classify (t : List Char) : Option (List Char × List Char) :=
  if (shortsMatch? t).isSome then some (convert_shorts_url t, shortsType)
  else if (normalMatch? t).isSome then some (t, regularType)
  else
    match youtuMatch? t with
    | some p => some (canonStart ++ p.1, regularType)
    | none => none

/-- A history entry as appended in lines 324-329: the dict
`{"title": ..., "url": ..., "date": ..., "type": ...}`.  All four fields are
strings; a field absent from a loaded dict reads as `""` through
`e.get(..., "")`, which the empty list represents. -/
structure ConversionRecord where
  title : List Char
  url : List Char
  date : List Char
  type : List Char
deriving DecidableEq, Repr

/-- The mutable state that one poll tick reads and writes: the in-memory
history, `self.last_clipboard_content`, and the OS clipboard text (written
back with the converted URL on a successful conversion). -/
structure MonitorState where
  history : List ConversionRecord
  last_clipboard_content : List Char
  clipboard : List Char
deriving DecidableEq, Repr

/-- Line 322: `any(e.get("url", "") == converted_url for e in self.history)`. -/
def historyHasUrl (history : List ConversionRecord) (u : List Char) : Bool :=
  history.any (fun e => e.url == u)

/-- One poll tick, `check_clipboard` (lines 299-335).  `current_text` is the
trimmed clipboard text read at the start of the tick; `video_title` is the
value returned by `get_video_title(converted_url)` (the network fetch is an
environment input); `today` is `datetime.today().strftime('%Y-%m-%d')`.
If the text equals the last converted URL, or matches no pattern, or the
converted URL is already recorded, the state is returned unchanged;
otherwise the record is appended, `last_clipboard_content` is set and the
converted URL is written back to the clipboard. -/
def check_clipboard (video_title today : List Char) (st : MonitorState)
    (current_text : List Char) : MonitorState :=
  if current_text = st.last_clipboard_content then st
  else
    match classify current_text with
    | none => st
    | some (converted_url, link_type) =>
      if historyHasUrl st.history converted_url then st
      else
        { history := st.history ++ [⟨video_title, converted_url, today, link_type⟩],
          last_clipboard_content := converted_url,
          clipboard := converted_url }

/-- A sequence of poll ticks; each element carries that tick's environment:
the fetched title, today's date string, and the trimmed clipboard text. -/
def runTicks (st : MonitorState) :
    List (List Char × List Char × List Char) → MonitorState
  | [] => st
  | (title, today, text) :: ticks => runTicks (check_clipboard title today st text) ticks

/-- No two records of the history share a `url` (the store's invariant). -/
def NoDupUrls (history : List ConversionRecord) : Prop :=
  history.Pairwise (fun a b => a.url ≠ b.url)

instance (history : List ConversionRecord) : Decidable (NoDupUrls history) := by
  unfold NoDupUrls; infer_instance

/-- Line 295 of `show_context_menu`: the Delete action rebuilds the history
as `[e for e in self.history if e.get("url", "") != url]`. -/
def delete_history_entries (history : List ConversionRecord)
    (url : List Char) : List ConversionRecord :=
  history.filter (fun e => e.url != url)

def unknownTitle : List Char :=
  ['U', 'n', 'k', 'n', 'o', 'w', 'n', ' ', 'T', 'i', 't', 'l', 'e']

/-- The literal `" - YouTube"` passed to `str.replace` in line 345. -/
def ytLit : List Char := [' ', '-', ' ', 'Y', 'o', 'u', 'T', 'u', 'b', 'e']

/-- Left-to-right scan of `title_tag.text.replace(" - YouTube", "")`:
every non-overlapping occurrence of the literal is removed, resuming after
the removed text.  Every step consumes at least one input character, so fuel
`s.length` computes the full scan. -/
def replaceYtGo : Nat → List Char → List Char
  | 0, s => s
  | _ + 1, [] => []
  | fuel + 1, c :: cs =>
    match matchLit ytLit (c :: cs) with
    | some rest => replaceYtGo fuel rest
    | none => c :: replaceYtGo fuel cs

def replaceYt (s : List Char) : List Char := replaceYtGo s.length s

/-- Outcome of the `try` block of `get_video_title` (lines 341-345), as an
environment input: the request/parse raised, or the parsed page had no
`<title>` element, or its first `<title>` element had the given text. -/
inductive FetchResult where
  | failure
  | pageWithoutTitle
  | pageWithTitle (text : List Char)
deriving DecidableEq, Repr

/-- Function `get_video_title` (lines 340-347): on any exception or missing title
element the fallback `"Unknown Title"`, otherwise the title text with
`" - YouTube"` replaced by the empty string. -/
def get_video_title : FetchResult → List Char
  | FetchResult.failure => unknownTitle
  | FetchResult.pageWithoutTitle => unknownTitle
  | FetchResult.pageWithTitle t => replaceYt t

/-! ## Statistics aggregation (`update_stats` / `compute_stats_for`) -/

def isDigit (c : Char) : Bool := decide ('0' ≤ c) && decide (c ≤ '9')

def digitVal (c : Char) : Nat := c.toNat - '0'.toNat

/-- A parsed calendar date `(year, month, day)`. -/
def YmdDate := Nat × Nat × Nat
deriving instance DecidableEq, Repr for YmdDate

/-- The month field of `strptime`'s `%m`: the alternation
`1[0-2]|0[1-9]|[1-9]`, tried in that order.  Committing on a two-character
alternative is sound: a two-character match leaves a digit as the
would-be separator of the one-character parse, so at most one alternative
can complete the surrounding pattern. -/
def month2? : List Char → Option (Nat × List Char)
  | c1 :: c2 :: rest =>
    if c1 = '1' && decide ('0' ≤ c2) && decide (c2 ≤ '2') then
      some (10 + digitVal c2, rest)
    else if c1 = '0' && decide ('1' ≤ c2) && decide (c2 ≤ '9') then
      some (digitVal c2, rest)
    else if decide ('1' ≤ c1) && decide (c1 ≤ '9') then
      some (digitVal c1, c2 :: rest)
    else none
  | [c1] =>
    if decide ('1' ≤ c1) && decide (c1 ≤ '9') then some (digitVal c1, []) else none
  | [] => none

/-- The day field of `strptime`'s `%d`: the alternation
`3[01]|[12]\d|0[1-9]|[1-9]`, tried in that order (same soundness argument
as for the month). -/
def day2? : List Char → Option (Nat × List Char)
  | c1 :: c2 :: rest =>
    if c1 = '3' && (c2 = '0' || c2 = '1') then
      some (30 + digitVal c2, rest)
    else if (c1 = '1' || c1 = '2') && isDigit c2 then
      some (10 * digitVal c1 + digitVal c2, rest)
    else if c1 = '0' && decide ('1' ≤ c2) && decide (c2 ≤ '9') then
      some (digitVal c2, rest)
    else if decide ('1' ≤ c1) && decide (c1 ≤ '9') then
      some (digitVal c1, c2 :: rest)
    else none
  | [c1] =>
    if decide ('1' ≤ c1) && decide (c1 ≤ '9') then some (digitVal c1, []) else none
  | [] => none

/-- The regular expression `strptime` compiles for `"%Y-%m-%d"`:
four digits (`%Y`), a dash, the `%m` alternation, a dash, the `%d`
alternation, with no unconverted trailing data allowed.  (`\d` is modelled
as an ASCII digit.) -/
def matchYMD (s : List Char) : Option YmdDate :=
  match s with
  | y1 :: y2 :: y3 :: y4 :: d :: rest =>
    if isDigit y1 && isDigit y2 && isDigit y3 && isDigit y4 && d = '-' then
      match month2? rest with
      | some (m, rest2) =>
        match rest2 with
        | '-' :: rest3 =>
          match day2? rest3 with
          | some (dy, rest4) =>
            if rest4.isEmpty then
              some (1000 * digitVal y1 + 100 * digitVal y2 +
                      10 * digitVal y3 + digitVal y4, m, dy)
            else none
          | none => none
        | _ => none
      | none => none
    else none
  | _ => none

def isLeapYear (y : Nat) : Bool :=
  y % 4 = 0 && (y % 100 ≠ 0 || y % 400 = 0)

def daysInMonth (y m : Nat) : Nat :=
  if m = 2 then (if isLeapYear y then 29 else 28)
  else if m = 4 || m = 6 || m = 9 || m = 11 then 30
  else 31

/-- Parse as `datetime.strptime(date_str, "%Y-%m-%d")` (line 227): the regex above
followed by the `datetime` constructor's range checks.  The regex already
forces `1 ≤ m ≤ 12` and `d ≥ 1`; the constructor additionally requires
`MINYEAR = 1 ≤ y` and `d` at most the month length. -/
def parseDate (s : List Char) : Option YmdDate :=
  match matchYMD s with
  | some (y, m, d) => if 1 ≤ y ∧ d ≤ daysInMonth y m then some (y, m, d) else none
  | none => none

/-- Decimal digits of `n`, zero-padded on the left to width `w`. -/
def padNum (w n : Nat) : List Char :=
  let ds := (Nat.repr n).toList
  List.replicate (w - ds.length) '0' ++ ds

/-- Format as `dt.strftime('%Y-%m-%d')` (line 234): year, month and day zero-padded
to widths 4, 2 and 2. -/
def fmtDate (d : YmdDate) : List Char :=
  padNum 4 d.1 ++ '-' :: padNum 2 d.2.1 ++ '-' :: padNum 2 d.2.2

/-- Helper `_ymd2ord` of CPython's `datetime`: the proleptic Gregorian ordinal,
with day 1 = January 1 of year 1. -/
def toOrdinal (d : YmdDate) : Int :=
  let y : Int := d.1
  (y - 1) * 365 + (y - 1).ediv 4 - (y - 1).ediv 100 + (y - 1).ediv 400 +
    ((List.range (d.2.1 - 1)).foldl (fun a k => a + daysInMonth d.1 (k + 1)) 0 : Nat) +
    (d.2.2 : Nat)

/-- Helper `_isoweek1monday` of CPython's `datetime`: the ordinal of the Monday
starting ISO week 1 of the given year. -/
def isoweek1monday (year : Int) : Int :=
  let firstday := toOrdinal (year.toNat, 1, 1)
  let firstweekday := (firstday + 6).emod 7
  let week1monday := firstday - firstweekday
  if firstweekday > 3 then week1monday + 7 else week1monday

/-- The `(ISO year, ISO week)` components of `dt.isocalendar()`
(lines 244-245), following CPython's `date.isocalendar`. -/
def isoYearWeek (d : YmdDate) : Int × Int :=
  let year : Int := d.1
  let today := toOrdinal d
  let week := (today - isoweek1monday year).ediv 7
  if week < 0 then
    (year - 1, (today - isoweek1monday (year - 1)).ediv 7 + 1)
  else if week ≥ 52 then
    if today ≥ isoweek1monday (year + 1) then (year + 1, 1)
    else (year, week + 1)
  else (year, week + 1)

/-- The `(dt.year, dt.month)` key of line 250. -/
def yearMonth (d : YmdDate) : Nat × Nat := (d.1, d.2.1)

/-- Lines 222-230: the dates of the entries whose `date` field parses
(`if date_str:` only skips the empty string, which does not parse anyway;
unparseable dates are skipped by the `except: pass`). -/
def validDates (entries : List ConversionRecord) : List YmdDate :=
  entries.filterMap (fun e => parseDate e.date)

/-- The elements of `l` in order of first occurrence (the key order of
`Counter(l)`, and the extension of `set(l)` used for its cardinality). -/
def uniqAux {α : Type} [DecidableEq α] : List α → List α → List α
  | _, [] => []
  | seen, x :: xs =>
    if x ∈ seen then uniqAux seen xs else x :: uniqAux (x :: seen) xs

def uniq {α : Type} [DecidableEq α] (l : List α) : List α := uniqAux [] l

/-- Number of occurrences of `x` in `l`, i.e. `Counter(l)[x]`. -/
def countOcc {α : Type} [DecidableEq α] (x : α) (l : List α) : Nat :=
  l.countP (fun y => y == x)

/-- Evaluation of `Counter(l).most_common(1)[0]` (line 236): `most_common` sorts the
`(element, count)` pairs by count descending with a stable sort over the
counter's insertion order, so the first pair holds the first-seen element
among those of maximal count.  (Line 236 only evaluates it when `l` is
nonempty; the `([], 0)` branch is unreachable there.) -/
def mostCommon (l : List (List Char)) : List Char × Nat :=
  let u := uniq l
  let m := u.foldr (fun x a => max (countOcc x l) a) 0
  match u.find? (fun x => countOcc x l == m) with
  | some x => (x, countOcc x l)
  | none => ([], 0)

/-- Rounding on a rational with Python's round-half-to-even tie-breaking.
(The source rounds a binary float; on the float's exact rational value the
two agree except where the binary representation of the quotient already
differs from the decimal reading, which the specification glosses over.) -/
def roundHalfEven (q : ℚ) : Int :=
  let n := ⌊q⌋
  let f := q - n
  if f < 1 / 2 then n
  else if 1 / 2 < f then n + 1
  else if n.emod 2 = 0 then n else n + 1

/-- Python's `round(x, 2)` (lines 256-258). -/
def round2 (q : ℚ) : ℚ := (roundHalfEven (q * 100) : ℚ) / 100

/-- The `stats_dict` built in lines 253-259. -/
structure CategoryStats where
  top_day : List Char
  max_count : Nat
  daily_avg : ℚ
  weekly_avg : ℚ
  monthly_avg : ℚ
deriving DecidableEq, Repr

/-- Lines 231-260 of `compute_stats_for`, as a function of the parsed valid
dates: `None` when no date parsed, otherwise the most-frequent re-formatted
day string with its count, and the total divided by the number of distinct
day strings / `(ISO year, ISO week)` pairs / `(year, month)` pairs, each
rounded to two decimal places. -/
def statsOfValidDates (valid : List YmdDate) : Option CategoryStats :=
  if valid.isEmpty then none
  else
    let date_strings := valid.map fmtDate
    let tm := mostCommon date_strings
    let total : ℚ := valid.length
    some { top_day := tm.1
           max_count := tm.2
           daily_avg := round2 (total / ((uniq date_strings).length : ℚ))
           weekly_avg := round2 (total / ((uniq (valid.map isoYearWeek)).length : ℚ))
           monthly_avg := round2 (total / ((uniq (valid.map yearMonth)).length : ℚ)) }

/-- Function `compute_stats_for(entries)` (lines 221-260). -/
def compute_stats_for (entries : List ConversionRecord) : Option CategoryStats :=
  statsOfValidDates (validDates entries)

/-- The URL produced by one classification step, when the text classifies:
the claim-level `normalize` (the url component of `classify`). -/
def normStep (t : List Char) : Option (List Char) := (classify t).map Prod.fst

/-- Stated from the specification's words for comparison with the code's
`replaceYt`: strip one trailing `" - YouTube"` suffix if present, leave the
title unchanged otherwise. -/
def stripTrailingYt (t : List Char) : List Char :=
  if 10 ≤ t.length ∧ t.drop (t.length - 10) = ytLit then t.take (t.length - 10) else t

/-- Leftmost occurrence of `" - YouTube"`: the part before it and the part
after it, or `none` when the literal does not occur. -/
def splitFirstYt : List Char → Option (List Char × List Char)
  | [] => none
  | c :: cs =>
    match matchLit ytLit (c :: cs) with
    | some rest => some ([], rest)
    | none => (splitFirstYt cs).map (fun p => (c :: p.1, p.2))

/-- Remove every occurrence of `" - YouTube"` by repeatedly splitting at the
leftmost occurrence (an occurrence-jumping reformulation of `replaceYt`,
used to state what the code computes).  Fuel as in `replaceYtGo`. -/
def removeAllGo : Nat → List Char → List Char
  | 0, s => s
  | fuel + 1, s =>
    match splitFirstYt s with
    | none => s
    | some p => p.1 ++ removeAllGo fuel p.2

def removeAllYt (s : List Char) : List Char := removeAllGo s.length s

/-- Concrete fixtures used by the witness theorems. -/
def exShortsUrl : List Char :=
  ['h', 't', 't', 'p', 's', ':', '/', '/', 'w', 'w', 'w', '.',
   'y', 'o', 'u', 't', 'u', 'b', 'e', '.', 'c', 'o', 'm', '/',
   's', 'h', 'o', 'r', 't', 's', '/', 'a', 'b', 'c', '1', '2', '3']

def exWatchUrl : List Char :=
  ['h', 't', 't', 'p', 's', ':', '/', '/', 'w', 'w', 'w', '.',
   'y', 'o', 'u', 't', 'u', 'b', 'e', '.', 'c', 'o', 'm', '/',
   'w', 'a', 't', 'c', 'h', '?', 'v', '=', 'a', 'b', 'c', '1', '2', '3']

def exYoutuUrl : List Char :=
  ['h', 't', 't', 'p', 's', ':', '/', '/',
   'y', 'o', 'u', 't', 'u', '.', 'b', 'e', '/', 'x', 'y', 'z', '7', '8', '9']

def exVid : List Char := ['x', 'y', 'z', '7', '8', '9']

/-- The URL `https://www.youtube.com/watch?v=xyz789`, i.e. `canonStart ++ exVid`. -/
def exCanonUrl : List Char := canonStart ++ exVid

def exDate1 : List Char := ['2', '0', '2', '4', '-', '0', '1', '-', '0', '1']

def exDate2 : List Char := ['2', '0', '2', '4', '-', '0', '1', '-', '0', '2']

def exState : MonitorState :=
  { history := [⟨unknownTitle, exWatchUrl, exDate1, regularType⟩],
    last_clipboard_content := [], clipboard := [] }

/-- A page title with an interior `" - YouTube"` that is not a suffix. -/
def exTitle : List Char :=
  ['C', 'a', 't'] ++ ytLit ++ [' ', 'M', 'i', 'x']

/-- Scenario 4 of the specification: three shorts records dated 2024-01-01
and one dated 2024-01-02. -/
def scenario4 : List ConversionRecord :=
  [⟨['a'], ['u', '1'], exDate1, shortsType⟩,
   ⟨['b'], ['u', '2'], exDate1, shortsType⟩,
   ⟨['c'], ['u', '3'], exDate1, shortsType⟩,
   ⟨['d'], ['u', '4'], exDate2, shortsType⟩]

/-! ## Properties of the literal matcher and the greedy id run -/

theorem matchLit_eq_some {p : List Char} :
    ∀ {s r : List Char}, matchLit p s = some r → s = p ++ r := by
  induction p with
  | nil => intro s r h; simpa [matchLit] using h
  | cons a ps ih =>
    intro s r h
    cases s with
    | nil => simp [matchLit] at h
    | cons c cs =>
      by_cases hc : c = a
      · simp only [matchLit, if_pos hc] at h
        simp [hc, ih h]
      · simp [matchLit, hc] at h

theorem matchLit_self (p : List Char) : ∀ r, matchLit p (p ++ r) = some r := by
  induction p with
  | nil => intro r; rfl
  | cons a ps ih => intro r; simp [matchLit, ih]

theorem matchLit_length {p s r : List Char} (h : matchLit p s = some r) :
    s.length = p.length + r.length := by
  rw [matchLit_eq_some h]; simp

theorem matchLit_cons_ne {p c : Char} {ps cs : List Char} (h : c ≠ p) :
    matchLit (p :: ps) (c :: cs) = none := by
  simp [matchLit, h]

theorem takeId_spec (s : List Char) :
    s = (takeId s).1 ++ (takeId s).2 ∧ (takeId s).1.all idChar = true ∧
      headNotId (takeId s).2 = true := by
  induction s with
  | nil => exact ⟨rfl, rfl, rfl⟩
  | cons c cs ih =>
    by_cases hc : idChar c = true
    · simp only [takeId, if_pos hc]
      exact ⟨by simpa using ih.1, by simp [hc, ih.2.1], ih.2.2⟩
    · simp only [takeId, if_neg hc]
      exact ⟨rfl, rfl, by simp [headNotId, hc]⟩

theorem takeId_build :
    ∀ {i r : List Char}, i.all idChar = true → headNotId r = true →
      takeId (i ++ r) = (i, r) := by
  intro i
  induction i with
  | nil =>
    intro r _ hr
    cases r with
    | nil => rfl
    | cons c cs =>
      simp only [headNotId, Bool.not_eq_true'] at hr
      simp [takeId, hr]
  | cons a as ih =>
    intro r hall hr
    simp only [List.all_cons, Bool.and_eq_true] at hall
    simp [takeId, hall.1, ih hall.2 hr]

/-! ## Soundness and completeness of the three URL pattern matchers -/

theorem scheme?_build (sec : Bool) (r : List Char) :
    scheme? (schemeL sec ++ r) = some (sec, r) := by
  cases sec <;> simp [scheme?, schemeL, matchLit]

theorem scheme?_sound {s : List Char} {sec : Bool} {r : List Char}
    (h : scheme? s = some (sec, r)) : s = schemeL sec ++ r := by
  unfold scheme? at h
  cases h1 : matchLit httpLit s with
  | none => rw [h1] at h; exact absurd h (by simp)
  | some r1 =>
    rw [h1] at h
    cases r1 with
    | nil => exact absurd h (by simp)
    | cons c r2 =>
      by_cases hc : c = 's'
      · simp only [if_pos hc] at h
        cases h2 : matchLit cssLit r2 with
        | none => rw [h2] at h; exact absurd h (by simp)
        | some r3 =>
          rw [h2] at h
          simp only [Option.map_some', Option.some.injEq, Prod.mk.injEq] at h
          rw [matchLit_eq_some h1, matchLit_eq_some h2, hc, ← h.1, ← h.2]
          rfl
      · simp only [if_neg hc] at h
        cases h2 : matchLit cssLit (c :: r2) with
        | none => rw [h2] at h; exact absurd h (by simp)
        | some r3 =>
          rw [h2] at h
          simp only [Option.map_some', Option.some.injEq, Prod.mk.injEq] at h
          rw [matchLit_eq_some h1, matchLit_eq_some h2, ← h.1, ← h.2]
          rfl

theorem wwwOpt_build (w : Bool) (r : List Char) :
    wwwOpt (wwwL w ++ ('y' :: r)) = (w, 'y' :: r) := by
  cases w <;> simp [wwwOpt, wwwL, wwwLit, matchLit]

theorem wwwOpt_sound {s : List Char} {w : Bool} {r : List Char}
    (h : wwwOpt s = (w, r)) : s = wwwL w ++ r := by
  unfold wwwOpt at h
  cases h1 : matchLit wwwLit s with
  | none =>
    rw [h1] at h
    simp only [Prod.mk.injEq] at h
    rw [← h.1, ← h.2]; rfl
  | some r2 =>
    rw [h1] at h
    simp only [Prod.mk.injEq] at h
    rw [matchLit_eq_some h1, ← h.1, ← h.2]; rfl

theorem shortsMatch?_build (sec w : Bool) {vid : List Char} (rest : List Char)
    (h1 : vid ≠ []) (h2 : vid.all idChar = true) (h3 : headNotId rest = true) :
    shortsMatch? (schemeL sec ++ (wwwL w ++ (shortsLit ++ (vid ++ rest))))
      = some ⟨sec, w, vid, rest⟩ := by
  have hw : wwwOpt (wwwL w ++ (shortsLit ++ (vid ++ rest)))
      = (w, shortsLit ++ (vid ++ rest)) := wwwOpt_build w (shortsLit.tail ++ (vid ++ rest))
  simp only [shortsMatch?, scheme?_build, hw, matchLit_self, takeId_build h2 h3]
  simp [List.isEmpty_iff, h1]

theorem normalMatch?_build (sec w : Bool) {vid : List Char} (rest : List Char)
    (h1 : vid ≠ []) (h2 : vid.all idChar = true) (h3 : headNotId rest = true) :
    normalMatch? (schemeL sec ++ (wwwL w ++ (watchLit ++ (vid ++ rest))))
      = some ⟨sec, w, vid, rest⟩ := by
  have hw : wwwOpt (wwwL w ++ (watchLit ++ (vid ++ rest)))
      = (w, watchLit ++ (vid ++ rest)) := wwwOpt_build w (watchLit.tail ++ (vid ++ rest))
  simp only [normalMatch?, scheme?_build, hw, matchLit_self, takeId_build h2 h3]
  simp [List.isEmpty_iff, h1]

theorem youtuMatch?_build (sec : Bool) {vid : List Char} (rest : List Char)
    (h1 : vid ≠ []) (h2 : vid.all idChar = true) (h3 : headNotId rest = true) :
    youtuMatch? (schemeL sec ++ (youtuLit ++ (vid ++ rest)))
      = some (vid, rest) := by
  simp only [youtuMatch?, scheme?_build, matchLit_self, takeId_build h2 h3]
  simp [List.isEmpty_iff, h1]

theorem shortsMatch?_sound {s : List Char} {m : UrlMatch}
    (h : shortsMatch? s = some m) :
    s = schemeL m.secure ++ (wwwL m.www ++ (shortsLit ++ (m.vid ++ m.rest))) ∧
      m.vid ≠ [] ∧ m.vid.all idChar = true ∧ headNotId m.rest = true := by
  unfold shortsMatch? at h
  cases h1 : scheme? s with
  | none => rw [h1] at h; exact absurd h (by simp)
  | some p =>
    obtain ⟨sec, r1⟩ := p
    rw [h1] at h
    dsimp only at h
    obtain ⟨w1, r2, hw⟩ : ∃ a b, wwwOpt r1 = (a, b) := ⟨_, _, rfl⟩
    rw [hw] at h
    cases h3 : matchLit shortsLit r2 with
    | none => simp only [h3] at h; exact absurd h (by simp)
    | some r3 =>
      simp only [h3] at h
      obtain ⟨i, r, hir⟩ : ∃ a b, takeId r3 = (a, b) := ⟨_, _, rfl⟩
      obtain ⟨hsp, hall, hni⟩ := takeId_spec r3
      rw [hir] at h hsp hall hni
      simp only at h hsp hall hni
      by_cases he : i = []
      · rw [he] at h; simp at h
      · have hne : i.isEmpty = false := by simp [List.isEmpty_iff, he]
        rw [hne] at h
        simp only [Bool.false_eq_true, if_false, Option.some.injEq] at h
        subst h
        refine ⟨?_, he, hall, hni⟩
        have hr2 : r2 = shortsLit ++ (i ++ r) := by
          rw [matchLit_eq_some h3, hsp]
        rw [scheme?_sound h1, wwwOpt_sound hw, hr2]

theorem normalMatch?_sound {s : List Char} {m : UrlMatch}
    (h : normalMatch? s = some m) :
    s = schemeL m.secure ++ (wwwL m.www ++ (watchLit ++ (m.vid ++ m.rest))) ∧
      m.vid ≠ [] ∧ m.vid.all idChar = true ∧ headNotId m.rest = true := by
  unfold normalMatch? at h
  cases h1 : scheme? s with
  | none => rw [h1] at h; exact absurd h (by simp)
  | some p =>
    obtain ⟨sec, r1⟩ := p
    rw [h1] at h
    dsimp only at h
    obtain ⟨w1, r2, hw⟩ : ∃ a b, wwwOpt r1 = (a, b) := ⟨_, _, rfl⟩
    rw [hw] at h
    cases h3 : matchLit watchLit r2 with
    | none => simp only [h3] at h; exact absurd h (by simp)
    | some r3 =>
      simp only [h3] at h
      obtain ⟨i, r, hir⟩ : ∃ a b, takeId r3 = (a, b) := ⟨_, _, rfl⟩
      obtain ⟨hsp, hall, hni⟩ := takeId_spec r3
      rw [hir] at h hsp hall hni
      simp only at h hsp hall hni
      by_cases he : i = []
      · rw [he] at h; simp at h
      · have hne : i.isEmpty = false := by simp [List.isEmpty_iff, he]
        rw [hne] at h
        simp only [Bool.false_eq_true, if_false, Option.some.injEq] at h
        subst h
        refine ⟨?_, he, hall, hni⟩
        have hr2 : r2 = watchLit ++ (i ++ r) := by
          rw [matchLit_eq_some h3, hsp]
        rw [scheme?_sound h1, wwwOpt_sound hw, hr2]

theorem youtuMatch?_sound {s : List Char} {vid rest : List Char}
    (h : youtuMatch? s = some (vid, rest)) :
    (∃ sec, s = schemeL sec ++ (youtuLit ++ (vid ++ rest))) ∧
      vid ≠ [] ∧ vid.all idChar = true ∧ headNotId rest = true := by
  unfold youtuMatch? at h
  cases h1 : scheme? s with
  | none => rw [h1] at h; exact absurd h (by simp)
  | some p =>
    obtain ⟨sec, r1⟩ := p
    rw [h1] at h
    dsimp only at h
    cases h2 : matchLit youtuLit r1 with
    | none => simp only [h2] at h; exact absurd h (by simp)
    | some r2 =>
      simp only [h2] at h
      obtain ⟨i, r, hir⟩ : ∃ a b, takeId r2 = (a, b) := ⟨_, _, rfl⟩
      obtain ⟨hsp, hall, hni⟩ := takeId_spec r2
      rw [hir] at h hsp hall hni
      simp only at h hsp hall hni
      by_cases he : i = []
      · rw [he] at h; simp at h
      · have hne : i.isEmpty = false := by simp [List.isEmpty_iff, he]
        rw [hne] at h
        simp only [Bool.false_eq_true, if_false, Option.some.injEq, Prod.mk.injEq] at h
        obtain ⟨hvid, hrest⟩ := h
        subst hvid hrest
        refine ⟨⟨sec, ?_⟩, he, hall, hni⟩
        have hr1 : r1 = youtuLit ++ (i ++ r) := by
          rw [matchLit_eq_some h2, hsp]
        rw [scheme?_sound h1, hr1]

/-! ## Mutual exclusivity of the three patterns -/

theorem matchLit_shortsLit_watch (x : List Char) :
    matchLit shortsLit (watchLit ++ x) = none := rfl

theorem matchLit_shortsLit_youtu (x : List Char) :
    matchLit shortsLit (youtuLit ++ x) = none := rfl

theorem matchLit_watchLit_youtu (x : List Char) :
    matchLit watchLit (youtuLit ++ x) = none := rfl

theorem wwwOpt_youtu (x : List Char) :
    wwwOpt (youtuLit ++ x) = (false, youtuLit ++ x) := rfl

theorem normal_not_shorts {s : List Char} {m : UrlMatch}
    (h : normalMatch? s = some m) : shortsMatch? s = none := by
  obtain ⟨hs, -, -, -⟩ := normalMatch?_sound h
  subst hs
  have hw : wwwOpt (wwwL m.www ++ (watchLit ++ (m.vid ++ m.rest)))
      = (m.www, watchLit ++ (m.vid ++ m.rest)) :=
    wwwOpt_build m.www (watchLit.tail ++ (m.vid ++ m.rest))
  simp only [shortsMatch?, scheme?_build, hw, matchLit_shortsLit_watch]

theorem youtu_not_shorts {s vid rest : List Char}
    (h : youtuMatch? s = some (vid, rest)) : shortsMatch? s = none := by
  obtain ⟨⟨sec, hs⟩, -, -, -⟩ := youtuMatch?_sound h
  subst hs
  simp only [shortsMatch?, scheme?_build, wwwOpt_youtu, matchLit_shortsLit_youtu]

theorem youtu_not_normal {s vid rest : List Char}
    (h : youtuMatch? s = some (vid, rest)) : normalMatch? s = none := by
  obtain ⟨⟨sec, hs⟩, -, -, -⟩ := youtuMatch?_sound h
  subst hs
  simp only [normalMatch?, scheme?_build, wwwOpt_youtu, matchLit_watchLit_youtu]

/-! ## Behaviour of the `re.sub` scan of `convert_shorts_url` -/

theorem shortsSeg?_cons_ne {c : Char} {cs : List Char} (h : c ≠ 'y') :
    shortsSeg? (c :: cs) = none := by
  simp only [shortsSeg?]
  rw [show shortsLit = 'y' :: shortsLit.tail from rfl, matchLit_cons_ne h]

theorem subShortsGo_notY {c : Char} {cs : List Char} (h : c ≠ 'y') (fuel : Nat) :
    subShortsGo (fuel + 1) (c :: cs) = c :: subShortsGo fuel cs := by
  simp only [subShortsGo, shortsSeg?_cons_ne h]

theorem subShortsGo_noY_append {pre : List Char} (h : ∀ c ∈ pre, c ≠ 'y') :
    ∀ (fuel : Nat) (rest : List Char),
      subShortsGo (pre.length + fuel) (pre ++ rest) = pre ++ subShortsGo fuel rest := by
  induction pre with
  | nil => intro fuel rest; simp
  | cons c cs ih =>
    intro fuel rest
    have hc : c ≠ 'y' := h c (by simp)
    have hl : (c :: cs).length + fuel = (cs.length + fuel) + 1 := by
      simp only [List.length_cons]; omega
    rw [hl, List.cons_append, subShortsGo_notY hc,
      ih (fun x hx => h x (by simp [hx])) fuel rest]
    simp

theorem shortsSeg?_build {vid : List Char} (rest : List Char)
    (h1 : vid ≠ []) (h2 : vid.all idChar = true) (h3 : headNotId rest = true) :
    shortsSeg? (shortsLit ++ (vid ++ rest)) = some (vid, rest) := by
  simp only [shortsSeg?, matchLit_self, takeId_build h2 h3]
  simp [List.isEmpty_iff, h1]

theorem subShortsGo_match {vid : List Char} (rest : List Char) (fuel : Nat)
    (h1 : vid ≠ []) (h2 : vid.all idChar = true) (h3 : headNotId rest = true) :
    subShortsGo (fuel + 1) (shortsLit ++ (vid ++ rest))
      = watchLit ++ vid ++ subShortsGo fuel rest := by
  rw [show shortsLit ++ (vid ++ rest) = 'y' :: (shortsLit.tail ++ (vid ++ rest)) from rfl]
  simp only [subShortsGo]
  rw [show 'y' :: (shortsLit.tail ++ (vid ++ rest)) = shortsLit ++ (vid ++ rest) from rfl,
    shortsSeg?_build rest h1 h2 h3]

theorem headNotId_subShortsGo {rest : List Char} (h : headNotId rest = true) :
    ∀ fuel, headNotId (subShortsGo fuel rest) = true := by
  intro fuel
  cases rest with
  | nil => cases fuel <;> simp [subShortsGo, headNotId]
  | cons c cs =>
    have hic : idChar c = false := by simpa [headNotId] using h
    have hc : c ≠ 'y' := by
      intro hx; rw [hx] at hic; exact absurd hic (by decide)
    cases fuel with
    | zero => simpa [subShortsGo] using h
    | succ n => rw [subShortsGo_notY hc]; simpa [headNotId] using hic

/-- C1: for every input string matching the Shorts pattern
`http(s)://[www.]youtube.com/shorts/<id>`, `convert_shorts_url` yields a
string that matches the regular-watch pattern and carries the same video
id, with the scheme and any `www.` of the input preserved. -/
theorem C1_shorts_normalization {s : List Char} {m : UrlMatch}
    (h : shortsMatch? s = some m) :
    ∃ tail, normalMatch? (convert_shorts_url s)
      = some ⟨m.secure, m.www, m.vid, tail⟩ := by
  obtain ⟨hs, h1, h2, h3⟩ := shortsMatch?_sound h
  have hassoc : s = (schemeL m.secure ++ wwwL m.www) ++ (shortsLit ++ (m.vid ++ m.rest)) := by
    rw [hs, List.append_assoc]
  have hnoY : ∀ c ∈ schemeL m.secure ++ wwwL m.www, c ≠ 'y' := by
    cases hsec : m.secure <;> cases hwww : m.www <;> decide
  have hlen : (shortsLit ++ (m.vid ++ m.rest)).length
      = (18 + (m.vid ++ m.rest).length) + 1 := by
    simp only [List.length_append, shortsLit, List.length_cons, List.length_nil]
    omega
  have hconv : convert_shorts_url s
      = (schemeL m.secure ++ wwwL m.www) ++
          (watchLit ++ m.vid ++ subShortsGo (18 + (m.vid ++ m.rest).length) m.rest) := by
    rw [show convert_shorts_url s = subShortsGo s.length s from rfl]
    rw [hassoc, List.length_append, subShortsGo_noY_append hnoY, hlen,
      subShortsGo_match m.rest _ h1 h2 h3]
  rw [hconv]
  refine ⟨subShortsGo (18 + (m.vid ++ m.rest).length) m.rest, ?_⟩
  have hb := normalMatch?_build m.secure m.www
    (subShortsGo (18 + (m.vid ++ m.rest).length) m.rest) h1 h2
    (headNotId_subShortsGo h3 _)
  simpa [List.append_assoc] using hb


/-- Witness for C1 at `https://www.youtube.com/shorts/abc123`. -/
theorem C1_witness :
    ∃ tail, normalMatch? (convert_shorts_url exShortsUrl)
      = some ⟨true, true, ['a', 'b', 'c', '1', '2', '3'], tail⟩ :=
  @C1_shorts_normalization exShortsUrl ⟨true, true, ['a', 'b', 'c', '1', '2', '3'], []⟩
    (by decide)

/-! ## Classification: precedence, anchoring and the no-op tick -/

theorem classify_shorts {t : List Char} {m : UrlMatch}
    (h : shortsMatch? t = some m) :
    classify t = some (convert_shorts_url t, shortsType) := by
  simp [classify, h]

theorem classify_normal {t : List Char} {m : UrlMatch}
    (h1 : shortsMatch? t = none) (h2 : normalMatch? t = some m) :
    classify t = some (t, regularType) := by
  simp [classify, h1, h2]

theorem classify_youtu {t vid rest : List Char}
    (h1 : shortsMatch? t = none) (h2 : normalMatch? t = none)
    (h3 : youtuMatch? t = some (vid, rest)) :
    classify t = some (canonStart ++ vid, regularType) := by
  simp [classify, h1, h2, h3]

theorem classify_none {t : List Char}
    (h1 : shortsMatch? t = none) (h2 : normalMatch? t = none)
    (h3 : youtuMatch? t = none) : classify t = none := by
  simp [classify, h1, h2, h3]

theorem check_clipboard_of_classify_none {t : List Char} (h : classify t = none)
    (title today : List Char) (st : MonitorState) :
    check_clipboard title today st t = st := by
  unfold check_clipboard
  by_cases he : t = st.last_clipboard_content
  · rw [if_pos he]
  · rw [if_neg he, h]

/-- C7: the three URL shapes are tested in the precedence order Shorts,
regular watch, short link, first match winning; each test is anchored at
the start of the string and allows arbitrary trailing text after the
(greedy) id; and a string matching none of the three leaves the whole tick
state — history, clipboard and hence the derived statistics — unchanged. -/
theorem C7_classification :
    (∀ (sec w : Bool) (vid tail : List Char), vid ≠ [] → vid.all idChar = true →
      headNotId tail = true →
      shortsMatch? (schemeL sec ++ (wwwL w ++ (shortsLit ++ (vid ++ tail))))
          = some ⟨sec, w, vid, tail⟩ ∧
      normalMatch? (schemeL sec ++ (wwwL w ++ (watchLit ++ (vid ++ tail))))
          = some ⟨sec, w, vid, tail⟩ ∧
      youtuMatch? (schemeL sec ++ (youtuLit ++ (vid ++ tail))) = some (vid, tail)) ∧
    (∀ (t : List Char) (m : UrlMatch), shortsMatch? t = some m →
      classify t = some (convert_shorts_url t, shortsType)) ∧
    (∀ (t : List Char) (m : UrlMatch), shortsMatch? t = none →
      normalMatch? t = some m → classify t = some (t, regularType)) ∧
    (∀ (t vid tail : List Char), shortsMatch? t = none → normalMatch? t = none →
      youtuMatch? t = some (vid, tail) →
      classify t = some (canonStart ++ vid, regularType)) ∧
    (∀ t : List Char, shortsMatch? t = none → normalMatch? t = none →
      youtuMatch? t = none →
      classify t = none ∧
      ∀ (title today : List Char) (st : MonitorState),
        check_clipboard title today st t = st ∧
        compute_stats_for (check_clipboard title today st t).history
          = compute_stats_for st.history) := by
  refine ⟨?_, ?_, ?_, ?_, ?_⟩
  · intro sec w vid tail h1 h2 h3
    exact ⟨shortsMatch?_build sec w tail h1 h2 h3,
      normalMatch?_build sec w tail h1 h2 h3,
      youtuMatch?_build sec tail h1 h2 h3⟩
  · intro t m h; exact classify_shorts h
  · intro t m h1 h2; exact classify_normal h1 h2
  · intro t vid tail h1 h2 h3; exact classify_youtu h1 h2 h3
  · intro t h1 h2 h3
    have hc := classify_none h1 h2 h3
    refine ⟨hc, ?_⟩
    intro title today st
    rw [check_clipboard_of_classify_none hc]
    exact ⟨rfl, rfl⟩

/-- Witness for C7 at a non-matching clipboard text. -/
theorem C7_witness :
    classify ['h', 'i'] = none ∧ check_clipboard ['t'] exDate1 exState ['h', 'i'] = exState := by
  have h := (C7_classification.2.2.2.2 ['h', 'i'] (by decide) (by decide) (by decide))
  exact ⟨h.1, (h.2 ['t'] exDate1 exState).1⟩

/-- C2: every input matching the short-link pattern `http(s)://youtu.be/<id>`
with captured id `X` normalizes to exactly `https://www.youtube.com/watch?v=X`
(https and `www.` forced regardless of the original scheme), and the record
the tick appends for it has type `"regular"` and that URL. -/
theorem C2_short_link {t vid tail : List Char}
    (h : youtuMatch? t = some (vid, tail)) :
    classify t = some (canonStart ++ vid, regularType) ∧
    ∀ (st : MonitorState) (title today : List Char),
      t ≠ st.last_clipboard_content →
      historyHasUrl st.history (canonStart ++ vid) = false →
      (check_clipboard title today st t).history
        = st.history ++ [⟨title, canonStart ++ vid, today, regularType⟩] := by
  have hc : classify t = some (canonStart ++ vid, regularType) :=
    classify_youtu (youtu_not_shorts h) (youtu_not_normal h) h
  refine ⟨hc, ?_⟩
  intro st title today hne hfresh
  unfold check_clipboard
  rw [if_neg hne, hc]
  simp [hfresh]

/-- Witness for C2 at `https://youtu.be/xyz789` against a state holding one
other record. -/
theorem C2_witness :
    classify exYoutuUrl = some (canonStart ++ exVid, regularType) ∧
      (check_clipboard unknownTitle exDate1 exState exYoutuUrl).history
        = exState.history ++ [⟨unknownTitle, canonStart ++ exVid, exDate1, regularType⟩] := by
  have h := @C2_short_link exYoutuUrl exVid [] (by decide)
  exact ⟨h.1, h.2 exState unknownTitle exDate1 (by decide) (by decide)⟩

/-- C9: normalization is idempotent on canonical URLs: a string already in
watch form is passed through unchanged by the normalization step, so
applying the step twice equals applying it once. -/
theorem C9_idempotent {u : List Char} {m : UrlMatch}
    (h : normalMatch? u = some m) :
    normStep u = some u ∧ (normStep u).bind normStep = normStep u := by
  have hc : classify u = some (u, regularType) :=
    classify_normal (normal_not_shorts h) h
  have h1 : normStep u = some u := by simp [normStep, hc]
  refine ⟨h1, ?_⟩
  rw [h1]
  show normStep u = some u
  exact h1

/-- Witness for C9 at `https://www.youtube.com/watch?v=abc123`. -/
theorem C9_witness :
    normStep exWatchUrl = some exWatchUrl ∧
      (normStep exWatchUrl).bind normStep = normStep exWatchUrl :=
  @C9_idempotent exWatchUrl ⟨true, true, ['a', 'b', 'c', '1', '2', '3'], []⟩ (by decide)

/-! ## History uniqueness and deletion -/

theorem historyHasUrl_false_forall {history : List ConversionRecord} {url : List Char}
    (h : historyHasUrl history url = false) : ∀ e ∈ history, e.url ≠ url := by
  intro e he heq
  have : historyHasUrl history url = true := by
    simp only [historyHasUrl, List.any_eq_true]
    exact ⟨e, he, by simp [heq]⟩
  rw [this] at h
  exact Bool.true_eq_false.mp h

theorem NoDupUrls_check_clipboard (title today text : List Char) (st : MonitorState)
    (h : NoDupUrls st.history) :
    NoDupUrls (check_clipboard title today st text).history := by
  unfold check_clipboard
  by_cases he : text = st.last_clipboard_content
  · rw [if_pos he]; exact h
  · rw [if_neg he]
    cases hc : classify text with
    | none => exact h
    | some p =>
      obtain ⟨url, ty⟩ := p
      dsimp only
      by_cases hh : historyHasUrl st.history url
      · rw [if_pos hh]; exact h
      · rw [if_neg hh]
        have hall := historyHasUrl_false_forall (Bool.not_eq_true _ ▸ hh)
        unfold NoDupUrls at h ⊢
        rw [List.pairwise_append]
        refine ⟨h, by simp, ?_⟩
        intro a ha b hb
        have hb' : b = ⟨title, url, today, ty⟩ := by simpa using hb
        rw [hb']
        exact hall a ha

/-- C3: for every starting history with pairwise distinct urls and every
sequence of poll ticks, the resulting history still has pairwise distinct
urls; and a tick whose converted URL is already recorded leaves the state —
in particular the history length — unchanged. -/
theorem C3_uniqueness :
    (∀ (st : MonitorState) (ticks : List (List Char × List Char × List Char)),
      NoDupUrls st.history → NoDupUrls (runTicks st ticks).history) ∧
    (∀ (st : MonitorState) (title today text url ty : List Char),
      classify text = some (url, ty) → historyHasUrl st.history url = true →
      check_clipboard title today st text = st ∧
      (check_clipboard title today st text).history.length = st.history.length) := by
  constructor
  · intro st ticks
    induction ticks generalizing st with
    | nil => intro h; exact h
    | cons tk ticks ih =>
      intro h
      obtain ⟨title, today, text⟩ := tk
      exact ih _ (NoDupUrls_check_clipboard title today text st h)
  · intro st title today text url ty hc hh
    have hst : check_clipboard title today st text = st := by
      unfold check_clipboard
      by_cases he : text = st.last_clipboard_content
      · rw [if_pos he]
      · rw [if_neg he, hc]
        dsimp only
        rw [if_pos hh]
    exact ⟨hst, by rw [hst]⟩

/-- Witness for C3: a run of two ticks from a singleton history, plus a tick
whose URL is already recorded. -/
theorem C3_witness :
    NoDupUrls (runTicks exState
      [(unknownTitle, exDate1, exYoutuUrl), (unknownTitle, exDate1, exShortsUrl)]).history ∧
      check_clipboard ['t'] exDate2 exState exWatchUrl = exState :=
  ⟨C3_uniqueness.1 exState _ (by decide),
   (C3_uniqueness.2 exState ['t'] exDate2 exWatchUrl exWatchUrl regularType
      (by decide) (by decide)).1⟩

/-- C5: the title fetcher returns the literal `"Unknown Title"` on any
failure (exception or missing `<title>` element), and a fetch failure does
not prevent the record from being appended by the tick. -/
theorem C5_fetch_failure :
    get_video_title FetchResult.failure = unknownTitle ∧
    get_video_title FetchResult.pageWithoutTitle = unknownTitle ∧
    ∀ (st : MonitorState) (today text url ty : List Char),
      text ≠ st.last_clipboard_content →
      classify text = some (url, ty) →
      historyHasUrl st.history url = false →
      (check_clipboard (get_video_title FetchResult.failure) today st text).history
        = st.history ++ [⟨unknownTitle, url, today, ty⟩] := by
  refine ⟨rfl, rfl, ?_⟩
  intro st today text url ty hne hc hfresh
  unfold check_clipboard
  rw [if_neg hne, hc]
  simp [hfresh, get_video_title]

/-- Witness for C5: an unreachable `https://youtu.be/xyz789` still yields an
appended record, titled with the fallback. -/
theorem C5_witness :
    (check_clipboard (get_video_title FetchResult.failure) exDate1 exState exYoutuUrl).history
      = exState.history ++ [⟨unknownTitle, canonStart ++ exVid, exDate1, regularType⟩] :=
  C5_fetch_failure.2.2 exState exDate1 exYoutuUrl (canonStart ++ exVid) regularType
    (by decide) (by decide) (by decide)

/-- C10: the Delete action removes exactly the records whose url equals the
given one — the remaining records form a subsequence of the original history
(same relative order, unmodified), every record with a different url keeps
its multiplicity, and no record with the deleted url survives. -/
theorem C10_delete (history : List ConversionRecord) (url : List Char) :
    (delete_history_entries history url).Sublist history ∧
    (∀ e : ConversionRecord,
      e ∈ delete_history_entries history url ↔ e ∈ history ∧ e.url ≠ url) ∧
    (∀ e : ConversionRecord, e.url ≠ url →
      (delete_history_entries history url).count e = history.count e) := by
  refine ⟨List.filter_sublist _, ?_, ?_⟩
  · intro e
    simp [delete_history_entries, List.mem_filter, bne_iff_ne]
  · intro e hne
    exact List.count_filter (by simpa [bne_iff_ne] using hne)

/-- Witness for C10: deleting one url keeps a record with a different url at
multiplicity 1. -/
theorem C10_witness :
    (delete_history_entries exState.history exCanonUrl).count
        ⟨unknownTitle, exWatchUrl, exDate1, regularType⟩
      = exState.history.count ⟨unknownTitle, exWatchUrl, exDate1, regularType⟩ :=
  (C10_delete exState.history exCanonUrl).2.2 _ (by decide)

/-! ## Title cleaning: `str.replace(" - YouTube", "")` -/

theorem splitFirstYt_eq_some :
    ∀ {s a b : List Char}, splitFirstYt s = some (a, b) → s = a ++ (ytLit ++ b) := by
  intro s
  induction s with
  | nil => intro a b h; simp [splitFirstYt] at h
  | cons c cs ih =>
    intro a b h
    unfold splitFirstYt at h
    cases hm : matchLit ytLit (c :: cs) with
    | some rest =>
      rw [hm] at h
      simp only [Option.some.injEq, Prod.mk.injEq] at h
      rw [← h.1, ← h.2]
      simpa using matchLit_eq_some hm
    | none =>
      rw [hm] at h
      cases hs : splitFirstYt cs with
      | none => rw [hs] at h; simp at h
      | some p =>
        obtain ⟨a1, b1⟩ := p
        rw [hs] at h
        simp only [Option.map_some', Option.some.injEq, Prod.mk.injEq] at h
        rw [← h.1, ← h.2]
        simp [ih hs]

theorem replaceYtGo_of_splitFirstYt_none :
    ∀ {s : List Char} (fuel : Nat), splitFirstYt s = none → replaceYtGo fuel s = s := by
  intro s
  induction s with
  | nil => intro fuel h; cases fuel <;> rfl
  | cons c cs ih =>
    intro fuel h
    unfold splitFirstYt at h
    cases hm : matchLit ytLit (c :: cs) with
    | some rest => rw [hm] at h; simp at h
    | none =>
      rw [hm] at h
      have hcs : splitFirstYt cs = none := by
        cases hs : splitFirstYt cs with
        | none => rfl
        | some p => rw [hs] at h; simp at h
      cases fuel with
      | zero => rfl
      | succ f => simp only [replaceYtGo, hm]; rw [ih f hcs]

theorem removeAllGo_nil (fuel : Nat) : removeAllGo fuel [] = [] := by
  cases fuel <;> simp [removeAllGo, splitFirstYt]

theorem removeAllGo_fuel_congr :
    ∀ (f1 f2 : Nat) (s : List Char), s.length ≤ f1 → s.length ≤ f2 →
      removeAllGo f1 s = removeAllGo f2 s := by
  intro f1
  induction f1 with
  | zero =>
    intro f2 s h1 h2
    have hnil : s = [] := List.length_eq_zero.mp (Nat.le_zero.mp h1)
    subst hnil
    rw [removeAllGo_nil, removeAllGo_nil]
  | succ f ih =>
    intro f2 s h1 h2
    cases s with
    | nil => rw [removeAllGo_nil, removeAllGo_nil]
    | cons c cs =>
      obtain ⟨g2, rfl⟩ : ∃ g, f2 = g + 1 :=
        ⟨f2 - 1, by have := h2; simp at this; omega⟩
      cases hs : splitFirstYt (c :: cs) with
      | none => simp [removeAllGo, hs]
      | some p =>
        obtain ⟨a, b⟩ := p
        have hsp := splitFirstYt_eq_some hs
        have hblen : b.length + 10 ≤ (c :: cs).length := by
          rw [hsp]; simp [ytLit]
        have h1' : (c :: cs).length ≤ f + 1 := h1
        have h2' : (c :: cs).length ≤ g2 + 1 := h2
        simp only [removeAllGo, hs]
        exact congrArg (a ++ ·) (ih g2 b (by omega) (by omega))

theorem replaceYtGo_eq_removeAllGo :
    ∀ (fuel : Nat) (s : List Char), s.length ≤ fuel →
      replaceYtGo fuel s = removeAllGo fuel s := by
  intro fuel
  induction fuel with
  | zero => intro s h; rfl
  | succ f ih =>
    intro s h
    cases s with
    | nil => rw [removeAllGo_nil]; rfl
    | cons c cs =>
      cases hm : matchLit ytLit (c :: cs) with
      | some rest =>
        have hsplit : splitFirstYt (c :: cs) = some ([], rest) := by
          unfold splitFirstYt; rw [hm]
        have hlen := matchLit_length hm
        simp only [replaceYtGo, removeAllGo, hm, hsplit]
        have hrest : rest.length ≤ f := by
          simp only [List.length_cons, ytLit] at hlen h
          simp at hlen
          omega
        rw [ih rest hrest]
        simp
      | none =>
        simp only [replaceYtGo, hm]
        cases hs : splitFirstYt cs with
        | none =>
          have hsplit : splitFirstYt (c :: cs) = none := by
            unfold splitFirstYt; rw [hm, hs]; rfl
          simp only [removeAllGo, hsplit]
          rw [replaceYtGo_of_splitFirstYt_none f hs]
        | some p =>
          obtain ⟨a, b⟩ := p
          have hsplit : splitFirstYt (c :: cs) = some (c :: a, b) := by
            unfold splitFirstYt; rw [hm, hs]; rfl
          simp only [removeAllGo, hsplit]
          have hcs : cs.length ≤ f := by
            simp only [List.length_cons] at h; omega
          rw [ih cs hcs]
          have hsp := splitFirstYt_eq_some hs
          have hblen : b.length + 10 ≤ cs.length := by
            rw [hsp]; simp [ytLit]
          obtain ⟨g, rfl⟩ : ∃ g, f = g + 1 := ⟨f - 1, by omega⟩
          simp only [removeAllGo, hs]
          rw [removeAllGo_fuel_congr g (g + 1) b (by omega) (by omega)]
          rfl

/-- C6 counterexample: for the title `"Cat - YouTube Mix"`, whose only
`" - YouTube"` occurrence is interior, the code removes the occurrence
(producing `"Cat Mix"`) while the claim's trailing-suffix-only stripping
would leave the title unchanged. -/
theorem C6_counterexample :
    get_video_title (FetchResult.pageWithTitle exTitle) ≠ stripTrailingYt exTitle ∧
    get_video_title (FetchResult.pageWithTitle exTitle)
      = ['C', 'a', 't', ' ', 'M', 'i', 'x'] ∧
    stripTrailingYt exTitle = exTitle := by decide

/-- C6 amended: the returned title is the `<title>` text with every
non-overlapping occurrence of `" - YouTube"` removed in one left-to-right
pass — not only a trailing suffix; a title without any occurrence is
returned unchanged. -/
theorem C6_amended :
    (∀ t : List Char,
      get_video_title (FetchResult.pageWithTitle t) = removeAllYt t) ∧
    (∀ t : List Char, splitFirstYt t = none →
      get_video_title (FetchResult.pageWithTitle t) = t) := by
  constructor
  · intro t
    exact replaceYtGo_eq_removeAllGo t.length t le_rfl
  · intro t h
    exact replaceYtGo_of_splitFirstYt_none t.length h

/-- Witness for C6 (amended claim) at a title with no occurrence. -/
theorem C6_witness :
    get_video_title (FetchResult.pageWithTitle ['H', 'i']) = ['H', 'i'] :=
  C6_amended.2 ['H', 'i'] (by decide)

/-! ## Statistics: distinct counting, the most-common day, averages -/

theorem mem_uniqAux {α : Type} [DecidableEq α] :
    ∀ (l seen : List α) (x : α), x ∈ uniqAux seen l ↔ x ∈ l ∧ x ∉ seen := by
  intro l
  induction l with
  | nil => intro seen x; simp [uniqAux]
  | cons a as ih =>
    intro seen x
    by_cases ha : a ∈ seen
    · rw [show uniqAux seen (a :: as) = uniqAux seen as from by simp [uniqAux, ha], ih]
      constructor
      · rintro ⟨hx, hns⟩; exact ⟨List.mem_cons_of_mem a hx, hns⟩
      · rintro ⟨hx, hns⟩
        rcases List.mem_cons.mp hx with h1 | h1
        · rw [h1] at hns; exact absurd ha hns
        · exact ⟨h1, hns⟩
    · rw [show uniqAux seen (a :: as) = a :: uniqAux (a :: seen) as from by
        simp [uniqAux, ha]]
      simp only [List.mem_cons, ih]
      constructor
      · rintro (hx | ⟨hx, hns⟩)
        · exact ⟨Or.inl hx, hx ▸ ha⟩
        · exact ⟨Or.inr hx, fun hs => hns (Or.inr hs)⟩
      · rintro ⟨hx | hx, hns⟩
        · exact Or.inl hx
        · by_cases hxa : x = a
          · exact Or.inl hxa
          · exact Or.inr ⟨hx, by simp [hxa, hns]⟩

theorem nodup_uniqAux {α : Type} [DecidableEq α] :
    ∀ (l seen : List α), (uniqAux seen l).Nodup := by
  intro l
  induction l with
  | nil => intro seen; simp [uniqAux]
  | cons a as ih =>
    intro seen
    by_cases ha : a ∈ seen
    · rw [show uniqAux seen (a :: as) = uniqAux seen as from by simp [uniqAux, ha]]
      exact ih seen
    · rw [show uniqAux seen (a :: as) = a :: uniqAux (a :: seen) as from by
        simp [uniqAux, ha]]
      refine List.nodup_cons.mpr ⟨?_, ih _⟩
      intro hmem
      exact ((mem_uniqAux as _ a).mp hmem).2 (List.mem_cons_self a seen)

theorem mem_uniq {α : Type} [DecidableEq α] (l : List α) (x : α) :
    x ∈ uniq l ↔ x ∈ l := by
  simp [uniq, mem_uniqAux]

theorem uniq_ne_nil {α : Type} [DecidableEq α] {l : List α} (h : l ≠ []) :
    uniq l ≠ [] := by
  cases l with
  | nil => exact absurd rfl h
  | cons a as =>
    intro he
    have hm := (mem_uniq (a :: as) a).mpr (by simp)
    rw [he] at hm
    simp at hm

theorem length_uniq {α : Type} [DecidableEq α] (l : List α) :
    (uniq l).length = l.toFinset.card := by
  have h1 : (uniq l).toFinset = l.toFinset := by
    ext x; simp [List.mem_toFinset, mem_uniq]
  have h2 : (uniq l).Nodup := nodup_uniqAux l []
  rw [← h1, List.toFinset_card_of_nodup h2]

theorem le_foldr_max {α : Type} (f : α → Nat) :
    ∀ (u : List α) (x : α), x ∈ u →
      f x ≤ u.foldr (fun y a => max (f y) a) 0 := by
  intro u
  induction u with
  | nil => intro x hx; simp at hx
  | cons a as ih =>
    intro x hx
    rcases List.mem_cons.mp hx with h | h
    · subst h; simp [List.foldr_cons, Nat.le_max_left]
    · exact le_trans (ih x h) (by simp [List.foldr_cons, Nat.le_max_right])

theorem foldr_max_attained {α : Type} (f : α → Nat) :
    ∀ u : List α, u ≠ [] →
      ∃ x ∈ u, f x = u.foldr (fun y a => max (f y) a) 0 := by
  intro u
  induction u with
  | nil => intro h; exact absurd rfl h
  | cons a as ih =>
    intro _
    by_cases has : as = []
    · subst has; exact ⟨a, by simp⟩
    · obtain ⟨x, hx, hfx⟩ := ih has
      rcases Nat.le_total (as.foldr (fun y a => max (f y) a) 0) (f a) with hle | hle
      · exact ⟨a, by simp, by simp [List.foldr_cons, Nat.max_eq_left hle]⟩
      · exact ⟨x, List.mem_cons_of_mem a hx,
          by simp [List.foldr_cons, Nat.max_eq_right hle, hfx]⟩

theorem mostCommon_spec (l : List (List Char)) (h : l ≠ []) :
    (mostCommon l).1 ∈ l ∧ countOcc (mostCommon l).1 l = (mostCommon l).2 ∧
      ∀ x ∈ l, countOcc x l ≤ (mostCommon l).2 := by
  have hune : uniq l ≠ [] := uniq_ne_nil h
  obtain ⟨x, hf⟩ : ∃ x, (uniq l).find?
      (fun y => countOcc y l == (uniq l).foldr (fun y a => max (countOcc y l) a) 0)
        = some x := by
    cases hf : (uniq l).find?
        (fun y => countOcc y l == (uniq l).foldr (fun y a => max (countOcc y l) a) 0) with
    | some x => exact ⟨x, rfl⟩
    | none =>
      exfalso
      obtain ⟨y, hy, hfy⟩ := foldr_max_attained (fun y => countOcc y l) (uniq l) hune
      have hnone := List.find?_eq_none.mp hf y hy
      simp only [beq_iff_eq] at hnone
      exact hnone hfy
  have hmc : mostCommon l = (x, countOcc x l) := by
    simp only [mostCommon]
    rw [hf]
  have hpx := List.find?_some hf
  have hxmem := List.mem_of_find?_eq_some hf
  simp only [beq_iff_eq] at hpx
  rw [hmc]
  refine ⟨(mem_uniq l x).mp hxmem, rfl, ?_⟩
  intro y hy
  have hyu : y ∈ uniq l := (mem_uniq l y).mpr hy
  calc countOcc y l ≤ _ := le_foldr_max (fun y => countOcc y l) (uniq l) y hyu
    _ = countOcc x l := hpx.symm

theorem roundHalfEven_intCast (n : ℤ) : roundHalfEven ((n : ℤ) : ℚ) = n := by
  unfold roundHalfEven
  norm_num

theorem round2_intCast (n : ℤ) : round2 ((n : ℤ) : ℚ) = n := by
  unfold round2
  rw [show ((n : ℚ) * 100) = (((n * 100 : ℤ) : ℚ)) by push_cast; ring,
    roundHalfEven_intCast]
  push_cast
  ring

/-- C4: for every category record list with at least one parseable date, the
computed statistics divide the total number of valid records by the number
of distinct day strings / distinct (ISO-year, ISO-week) pairs / distinct
(year, month) pairs, rounded to two decimal places; `top_day` attains the
maximal per-day count and `max_count` is exactly its count.  In particular
three shorts records dated 2024-01-01 and one dated 2024-01-02 give top day
2024-01-01 with count 3 and daily average 2. -/
theorem C4_stats :
    (∀ entries : List ConversionRecord, validDates entries ≠ [] →
      ∃ st, compute_stats_for entries = some st ∧
        st.daily_avg = round2 (((validDates entries).length : ℚ) /
          ((((validDates entries).map fmtDate).toFinset.card : Nat) : ℚ)) ∧
        st.weekly_avg = round2 (((validDates entries).length : ℚ) /
          ((((validDates entries).map isoYearWeek).toFinset.card : Nat) : ℚ)) ∧
        st.monthly_avg = round2 (((validDates entries).length : ℚ) /
          ((((validDates entries).map yearMonth).toFinset.card : Nat) : ℚ)) ∧
        countOcc st.top_day ((validDates entries).map fmtDate) = st.max_count ∧
        ∀ d ∈ (validDates entries).map fmtDate,
          countOcc d ((validDates entries).map fmtDate) ≤ st.max_count) ∧
    (compute_stats_for scenario4).map (fun st => (st.top_day, st.max_count))
        = some (exDate1, 3) ∧
    (compute_stats_for scenario4).map (fun st => st.daily_avg) = some 2 := by
  refine ⟨?_, ?_, ?_⟩
  · intro entries h
    have hne : ¬ (validDates entries).isEmpty = true := by
      simp [List.isEmpty_iff, h]
    have hds : (validDates entries).map fmtDate ≠ [] := by
      simpa [List.map_eq_nil_iff] using h
    obtain ⟨hmem, hcount, hmax⟩ := mostCommon_spec _ hds
    unfold compute_stats_for statsOfValidDates
    rw [if_neg hne]
    refine ⟨_, rfl, ?_, ?_, ?_, ?_, ?_⟩ <;> dsimp only
    · rw [length_uniq]
    · rw [length_uniq]
    · rw [length_uniq]
    · exact hcount
    · exact hmax
  · decide
  · have hvd : validDates scenario4
        = [(2024, 1, 1), (2024, 1, 1), (2024, 1, 1), (2024, 1, 2)] := by decide
    unfold compute_stats_for statsOfValidDates
    rw [hvd]
    rw [if_neg (by decide)]
    simp only [Option.map_some']
    rw [show (uniq (([((2024 : Nat), (1 : Nat), (1 : Nat)), (2024, 1, 1), (2024, 1, 1),
          (2024, 1, 2)] : List YmdDate).map fmtDate)).length = 2 from by decide]
    rw [show (([((2024 : Nat), (1 : Nat), (1 : Nat)), (2024, 1, 1), (2024, 1, 1),
          (2024, 1, 2)] : List YmdDate).length : ℚ) = ((4 : ℤ) : ℚ) from by norm_num]
    rw [show (((2 : Nat) : ℚ)) = ((2 : ℤ) : ℚ) from by norm_num]
    rw [show (((4 : ℤ) : ℚ) / ((2 : ℤ) : ℚ)) = (((2 : ℤ) : ℚ)) from by norm_num]
    rw [round2_intCast]
    norm_num

/-- Witness for C4 at scenario 4 (the hypothesis holds: four parseable
dates). -/
theorem C4_witness :
    ∃ st, compute_stats_for scenario4 = some st ∧
      st.daily_avg = round2 (((validDates scenario4).length : ℚ) /
        ((((validDates scenario4).map fmtDate).toFinset.card : Nat) : ℚ)) ∧
      st.weekly_avg = round2 (((validDates scenario4).length : ℚ) /
        ((((validDates scenario4).map isoYearWeek).toFinset.card : Nat) : ℚ)) ∧
      st.monthly_avg = round2 (((validDates scenario4).length : ℚ) /
        ((((validDates scenario4).map yearMonth).toFinset.card : Nat) : ℚ)) ∧
      countOcc st.top_day ((validDates scenario4).map fmtDate) = st.max_count ∧
      ∀ d ∈ (validDates scenario4).map fmtDate,
        countOcc d ((validDates scenario4).map fmtDate) ≤ st.max_count :=
  C4_stats.1 scenario4 (by decide)

/-- C8: statistics computation silently discards records whose date is
missing or unparseable, without failing and without affecting the remaining
records — the result coincides with the result on the filtered list — and
the result is `none` exactly when no record has a parseable date. -/
theorem C8_invalid_dates (entries : List ConversionRecord) :
    compute_stats_for entries
      = compute_stats_for (entries.filter (fun e => (parseDate e.date).isSome)) ∧
    (compute_stats_for entries = none ↔ validDates entries = []) := by
  constructor
  · unfold compute_stats_for
    have hv : validDates (entries.filter (fun e => (parseDate e.date).isSome))
        = validDates entries := by
      unfold validDates
      induction entries with
      | nil => rfl
      | cons e es ih =>
        cases hp : parseDate e.date with
        | none => simp [List.filter_cons, List.filterMap_cons, hp, ih]
        | some d => simp [List.filter_cons, List.filterMap_cons, hp, ih]
    rw [hv]
  · unfold compute_stats_for statsOfValidDates
    by_cases he : (validDates entries).isEmpty = true
    · rw [if_pos he]
      simp [List.isEmpty_iff.mp he]
    · rw [if_neg he]
      have hne : validDates entries ≠ [] := by
        simpa [List.isEmpty_iff] using he
      simp [hne]

/-- Witness for C8 at a single record whose date does not parse. -/
theorem C8_witness :
    compute_stats_for [⟨['a'], ['u'], ['b', 'a', 'd'], shortsType⟩]
      = compute_stats_for ([⟨['a'], ['u'], ['b', 'a', 'd'], shortsType⟩].filter
          (fun e => (parseDate e.date).isSome)) ∧
    (compute_stats_for [⟨['a'], ['u'], ['b', 'a', 'd'], shortsType⟩] = none ↔
      validDates [⟨['a'], ['u'], ['b', 'a', 'd'], shortsType⟩] = []) :=
  C8_invalid_dates _
